import Mathlib

/-!
Verification development for the `meals` repository.

Embedded components:
* the ingredient line parser `CreateIngredientRequest.from_string` together
  with the regex `INGREDIENT_REGEX = ([a-zA-Z ]+)([\d.]+)([a-zA-Z ]+)`
  from `src/meals/schemas.py`;
* the recipe repository operations `RecipeRepository.create` and
  `RecipeRepository.update` from `src/meals/database/repository.py`, over an
  explicit state (`DB`) holding the ingredient table, the recipe table and a
  primary-key counter standing for object identity.

Numeric quantities are modelled as rationals (`pydantic` parses the quantity
group with Python `float`; every value appearing in the spec's examples is
exactly representable, so no rounding behaviour is modelled).  Character
classes are modelled over the ASCII range that the regex names explicitly
(`a-z`, `A-Z`, space, `0-9`, `.`).
-/

namespace Meals

/-- The character class `[a-zA-Z ]` of `INGREDIENT_REGEX` (ASCII letters and
the space character). -/
def isAlphaSp (c : Char) : Bool :=
  decide ((65 ≤ c.toNat ∧ c.toNat ≤ 90) ∨ (97 ≤ c.toNat ∧ c.toNat ≤ 122) ∨ c.toNat = 32)

/-- The character class `[\d.]` of `INGREDIENT_REGEX` (ASCII digits and the
decimal point). -/
def isDigitDot (c : Char) : Bool :=
  decide ((48 ≤ c.toNat ∧ c.toNat ≤ 57) ∨ c.toNat = 46)

/-- Python `str.strip()` specialised to the characters that can occur in a
regex group here: only spaces (the groups match `[a-zA-Z ]`). -/
def stripSpaces (l : List Char) : List Char :=
  ((l.dropWhile (fun c => c == ' ')).reverse.dropWhile (fun c => c == ' ')).reverse

/-- Numeric value of a digit character. -/
def digitVal (c : Char) : Nat := c.toNat - 48

/-- Value of a list of digit characters read in base 10. -/
def digitsVal (l : List Char) : Nat :=
  l.foldl (fun a c => a * 10 + digitVal c) 0

/-- Python `float()` restricted to the strings that `INGREDIENT_REGEX` group 2
can produce (digits and dots): it succeeds exactly when there is at most one
dot and at least one digit, yielding the usual decimal value. -/
def parseFloat (l : List Char) : Option ℚ :=
  let ip := l.takeWhile (fun c => c ≠ '.')
  let rest := l.dropWhile (fun c => c ≠ '.')
  match rest with
  | [] =>
    if l ≠ [] ∧ l.all Char.isDigit then some (digitsVal l) else none
  | _ :: fp =>
    if ip.all Char.isDigit ∧ fp.all Char.isDigit ∧ (ip ≠ [] ∨ fp ≠ [])
    then some ((digitsVal ip : ℚ) + (digitsVal fp : ℚ) / (10 ^ fp.length : ℚ))
    else none

/-- One attempt of `INGREDIENT_REGEX` at a fixed start position.  The three
character classes are pairwise disjoint, so the greedy run of each group with
backtracking is simply the maximal run: group 1 is the maximal `[a-zA-Z ]` run
at the start, group 2 the maximal `[\d.]` run after it, group 3 the maximal
`[a-zA-Z ]` run after that; each must be non-empty. -/
def matchAt (l : List Char) : Option (List Char × List Char × List Char) :=
  let g1 := l.takeWhile isAlphaSp
  let r1 := l.dropWhile isAlphaSp
  if g1.isEmpty then none
  else
    let g2 := r1.takeWhile isDigitDot
    let r2 := r1.dropWhile isDigitDot
    if g2.isEmpty then none
    else
      let g3 := r2.takeWhile isAlphaSp
      if g3.isEmpty then none else some (g1, g2, g3)

/-- `INGREDIENT_REGEX.search`: try each start position from the left and
return the first successful attempt. -/
def search : List Char → Option (List Char × List Char × List Char)
  | [] => none
  | c :: cs =>
    match matchAt (c :: cs) with
    | some g => some g
    | none => search cs

/-- The structured result of parsing one ingredient line. -/
structure IngredientFields where
  name : List Char
  quantity : ℚ
  unit : List Char
  deriving DecidableEq

/-- The message of `MalformedIngredientError` raised by `from_string`. -/
def malformedMsg : String :=
  "Expected ingredient to be in form: 'name quantity unit'. Where quantity is a number."

/-- Outcome of validating one ingredient line: the structured triple, the
`from_string` `ValueError` (surfaced as `MalformedIngredientError` with
`malformedMsg`), or the separate pydantic validation failure when the matched
quantity group is not a parseable number. -/
inductive ParseResult where
  | ok (f : IngredientFields)
  | malformed (msg : String)
  | invalidQuantity
  deriving DecidableEq

/-- `CreateIngredientRequest` validation of a raw string
(`from_string` followed by field validation of `quantity : float`):
run `INGREDIENT_REGEX.search`; on no match raise the malformed error;
otherwise name and unit are the stripped outer groups and the quantity is the
middle group parsed as a float. -/
def parseIngredientLine (s : List Char) : ParseResult :=
  match search s with
  | none => .malformed malformedMsg
  | some (g1, g2, g3) =>
    match parseFloat g2 with
    | none => .invalidQuantity
    | some q => .ok ⟨stripSpaces g1, q, stripSpaces g3⟩

/-- Spec-side decomposition, following the spec's words: split the input at
the first maximal run of digits/decimal-point characters, into the part
before the run, the run, and the part after the run.  `none` when the string
contains no such run. -/
def specSplit (s : List Char) : Option (List Char × List Char × List Char) :=
  let before := s.takeWhile (fun c => ! isDigitDot c)
  let rest := s.dropWhile (fun c => ! isDigitDot c)
  match rest with
  | [] => none
  | _ => some (before, rest.takeWhile isDigitDot, rest.dropWhile isDigitDot)

/-- Spec-side failure condition, following the spec's words: the parse fails
exactly when no numeric run is found, or the decomposition around the first
numeric run does not give non-empty (trimmed) name and unit parts. -/
def specFails (s : List Char) : Bool :=
  match specSplit s with
  | none => true
  | some (before, _, after) => (stripSpaces before).isEmpty || (stripSpaces after).isEmpty

/-- A decomposition of `s` exhibiting one occurrence of the
`INGREDIENT_REGEX` pattern: a non-empty letters/spaces run, then a non-empty
digits/dots run, then a non-empty letters/spaces run, at some position. -/
def MatchShape (s pre g1 g2 g3 post : List Char) : Prop :=
  s = pre ++ g1 ++ g2 ++ g3 ++ post ∧
  g1 ≠ [] ∧ (∀ c ∈ g1, isAlphaSp c) ∧
  g2 ≠ [] ∧ (∀ c ∈ g2, isDigitDot c) ∧
  g3 ≠ [] ∧ (∀ c ∈ g3, isAlphaSp c)

theorem alphaSp_not_digitDot {c : Char} (h : isAlphaSp c = true) : isDigitDot c = false := by
  simp only [isAlphaSp, decide_eq_true_eq] at h
  simp only [isDigitDot, decide_eq_false_iff_not]
  omega

theorem digitDot_not_alphaSp {c : Char} (h : isDigitDot c = true) : isAlphaSp c = false := by
  simp only [isDigitDot, decide_eq_true_eq] at h
  simp only [isAlphaSp, decide_eq_false_iff_not]
  omega

theorem matchAt_eq_some {l g1 g2 g3 : List Char} (h : matchAt l = some (g1, g2, g3)) :
    g1 = l.takeWhile isAlphaSp ∧ g1 ≠ [] ∧
    g2 = (l.dropWhile isAlphaSp).takeWhile isDigitDot ∧ g2 ≠ [] ∧
    g3 = ((l.dropWhile isAlphaSp).dropWhile isDigitDot).takeWhile isAlphaSp ∧ g3 ≠ [] := by
  by_cases h1 : (l.takeWhile isAlphaSp).isEmpty
  · simp [matchAt, h1] at h
  · by_cases h2 : ((l.dropWhile isAlphaSp).takeWhile isDigitDot).isEmpty
    · simp [matchAt, h1, h2] at h
    · by_cases h3 : (((l.dropWhile isAlphaSp).dropWhile isDigitDot).takeWhile isAlphaSp).isEmpty
      · simp [matchAt, h1, h2, h3] at h
      · simp only [matchAt, h1, h2, h3, Bool.false_eq_true, if_false, Option.some.injEq,
          Prod.mk.injEq] at h
        obtain ⟨e1, e2, e3⟩ := h
        simp only [Bool.not_eq_true, List.isEmpty_eq_false] at h1 h2 h3
        exact ⟨e1.symm, e1 ▸ h1, e2.symm, e2 ▸ h2, e3.symm, e3 ▸ h3⟩

theorem matchAt_shape {l g1 g2 g3 : List Char} (h : matchAt l = some (g1, g2, g3)) :
    ∃ post, MatchShape l [] g1 g2 g3 post ∧
      (∀ c, post.head? = some c → isAlphaSp c = false) := by
  obtain ⟨e1, n1, e2, n2, e3, n3⟩ := matchAt_eq_some h
  refine ⟨((l.dropWhile isAlphaSp).dropWhile isDigitDot).dropWhile isAlphaSp,
    ⟨?_, n1, ?_, n2, ?_, n3, ?_⟩, ?_⟩
  · simp [e1, e2, e3, List.append_assoc]
  · intro c hc; exact List.mem_takeWhile_imp (e1 ▸ hc)
  · intro c hc; exact List.mem_takeWhile_imp (e2 ▸ hc)
  · intro c hc; exact List.mem_takeWhile_imp (e3 ▸ hc)
  · intro c hc
    have h0 := List.head?_dropWhile_not isAlphaSp
      ((l.dropWhile isAlphaSp).dropWhile isDigitDot)
    rw [hc] at h0
    exact h0

theorem matchAt_isSome (g1 g2 g3 rest : List Char)
    (n1 : g1 ≠ []) (a1 : ∀ c ∈ g1, isAlphaSp c)
    (n2 : g2 ≠ []) (a2 : ∀ c ∈ g2, isDigitDot c)
    (n3 : g3 ≠ []) (a3 : ∀ c ∈ g3, isAlphaSp c) :
    (matchAt (g1 ++ g2 ++ g3 ++ rest)).isSome := by
  obtain ⟨d, g2', rfl⟩ : ∃ d g2', g2 = d :: g2' := by
    cases g2 with
    | nil => exact absurd rfl n2
    | cons d g2' => exact ⟨d, g2', rfl⟩
  obtain ⟨e, g3', rfl⟩ : ∃ e g3', g3 = e :: g3' := by
    cases g3 with
    | nil => exact absurd rfl n3
    | cons e g3' => exact ⟨e, g3', rfl⟩
  have hd : isDigitDot d = true := a2 d (by simp)
  have he : isAlphaSp e = true := a3 e (by simp)
  have hdn : ¬ isAlphaSp d = true := by simp [digitDot_not_alphaSp hd]
  have hen : ¬ isDigitDot e = true := by simp [alphaSp_not_digitDot he]
  have t1 : ((g1 ++ (d :: g2')) ++ (e :: g3') ++ rest).takeWhile isAlphaSp = g1 := by
    rw [List.append_assoc, List.append_assoc, List.takeWhile_append_of_pos a1]
    simp [List.takeWhile_cons_of_neg hdn]
  have t2 : ((g1 ++ (d :: g2')) ++ (e :: g3') ++ rest).dropWhile isAlphaSp
      = (d :: g2') ++ ((e :: g3') ++ rest) := by
    rw [List.append_assoc, List.append_assoc, List.dropWhile_append_of_pos a1]
    simp [List.dropWhile_cons_of_neg hdn]
  have a2' : ∀ c ∈ d :: g2', isDigitDot c := a2
  have t3 : ((d :: g2') ++ ((e :: g3') ++ rest)).takeWhile isDigitDot = d :: g2' := by
    rw [List.takeWhile_append_of_pos a2']
    simp [List.takeWhile_cons_of_neg hen]
  have t4 : ((d :: g2') ++ ((e :: g3') ++ rest)).dropWhile isDigitDot
      = (e :: g3') ++ rest := by
    rw [List.dropWhile_append_of_pos a2']
    simp [List.dropWhile_cons_of_neg hen]
  simp only [matchAt, t1, t2, t3, t4]
  have n1' : g1.isEmpty = false := by simp [List.isEmpty_eq_false, n1]
  simp [n1', List.takeWhile_cons_of_pos he]

theorem search_shape : ∀ {l g1 g2 g3 : List Char}, search l = some (g1, g2, g3) →
    ∃ pre post, MatchShape l pre g1 g2 g3 post ∧
      (∀ c, pre.getLast? = some c → isAlphaSp c = false) ∧
      (∀ c, post.head? = some c → isAlphaSp c = false) ∧
      (∀ pre2 h1 h2 h3 post2, MatchShape l pre2 h1 h2 h3 post2 →
        pre.length ≤ pre2.length) := by
  intro l
  induction l with
  | nil => intro g1 g2 g3 h; simp [search] at h
  | cons c cs ih =>
    intro g1 g2 g3 h
    cases hm : matchAt (c :: cs) with
    | some g =>
      rw [search, hm] at h
      cases h
      obtain ⟨post, hshape, hpost⟩ := matchAt_shape hm
      exact ⟨[], post, hshape, by simp, hpost, fun _ _ _ _ _ _ => Nat.zero_le _⟩
    | none =>
      rw [search, hm] at h
      obtain ⟨pre, post, hshape, hlast, hpost, hmin⟩ := ih h
      refine ⟨c :: pre, post, ?_, ?_, hpost, ?_⟩
      · obtain ⟨hcs, rest⟩ := hshape
        exact ⟨by simp [hcs], rest⟩
      · intro x hx
        cases pre with
        | nil =>
          have hxc : x = c := by
            simp only [List.getLast?_singleton, Option.some.injEq] at hx
            exact hx.symm
          rw [hxc]
          by_contra hcon
          rw [Bool.not_eq_false] at hcon
          obtain ⟨hcs, n1, a1, n2, a2, n3, a3⟩ := hshape
          simp only [List.nil_append] at hcs
          have hsome : (matchAt ((c :: g1) ++ g2 ++ g3 ++ post)).isSome :=
            matchAt_isSome (c :: g1) g2 g3 post (by simp)
              (by intro y hy
                  rcases List.mem_cons.mp hy with rfl | hy
                  · exact hcon
                  · exact a1 y hy)
              n2 a2 n3 a3
          have hrw : (c :: g1) ++ g2 ++ g3 ++ post = c :: cs := by
            simp [hcs]
          rw [hrw, hm] at hsome
          exact absurd hsome (by simp)
        | cons p ps =>
          rw [List.getLast?_cons_cons] at hx
          exact hlast x hx
      · intro pre2 h1 h2 h3 post2 hsh2
        obtain ⟨heq, n1, a1, n2, a2, n3, a3⟩ := hsh2
        cases pre2 with
        | nil =>
          simp only [List.nil_append] at heq
          have : (matchAt (h1 ++ h2 ++ h3 ++ post2)).isSome :=
            matchAt_isSome h1 h2 h3 post2 n1 a1 n2 a2 n3 a3
          rw [← heq, hm] at this
          exact absurd this (by simp)
        | cons p2 ps2 =>
          have hcs : cs = ps2 ++ h1 ++ h2 ++ h3 ++ post2 := by
            simpa using congrArg List.tail heq
          have := hmin ps2 h1 h2 h3 post2 ⟨hcs, n1, a1, n2, a2, n3, a3⟩
          simpa using Nat.succ_le_succ this

theorem search_isSome_of_shape : ∀ {l pre g1 g2 g3 post : List Char},
    MatchShape l pre g1 g2 g3 post → (search l).isSome := by
  intro l pre
  induction pre generalizing l with
  | nil =>
    intro g1 g2 g3 post h
    obtain ⟨heq, n1, a1, n2, a2, n3, a3⟩ := h
    simp only [List.nil_append] at heq
    have hsome : (matchAt (g1 ++ g2 ++ g3 ++ post)).isSome :=
      matchAt_isSome g1 g2 g3 post n1 a1 n2 a2 n3 a3
    rw [← heq] at hsome
    obtain ⟨c, cs, rfl⟩ : ∃ c cs, l = c :: cs := by
      cases l with
      | nil =>
        cases g1 with
        | nil => exact absurd rfl n1
        | cons x xs => simp at heq
      | cons c cs => exact ⟨c, cs, rfl⟩
    cases hmm : matchAt (c :: cs) with
    | some g => rw [search, hmm]; rfl
    | none => rw [hmm] at hsome; exact absurd hsome (by simp)
  | cons a ps ih =>
    intro g1 g2 g3 post h
    obtain ⟨heq, rest⟩ := h
    obtain rfl : l = a :: (ps ++ g1 ++ g2 ++ g3 ++ post) := by simpa using heq
    cases hmm : matchAt (a :: (ps ++ g1 ++ g2 ++ g3 ++ post)) with
    | some g => rw [search, hmm]; rfl
    | none =>
      rw [search, hmm]
      exact ih ⟨rfl, rest⟩

/-- Claim C7: parser reference examples.  `parse("Garlic 1 clove")` yields
name `Garlic`, quantity `1.0`, unit `clove`; `parse("Flour 2 cups")` yields
name `Flour`, quantity `2.0`, unit `cups`; `parse("Flour")` and
`parse("Flour z cups")` fail with `MalformedIngredientError`. -/
theorem parse_reference_examples :
    parseIngredientLine ("Garlic 1 clove".toList) =
      .ok ⟨"Garlic".toList, 1, "clove".toList⟩ ∧
    parseIngredientLine ("Flour 2 cups".toList) =
      .ok ⟨"Flour".toList, 2, "cups".toList⟩ ∧
    parseIngredientLine ("Flour".toList) = .malformed malformedMsg ∧
    parseIngredientLine ("Flour z cups".toList) = .malformed malformedMsg := by
  decide

/-- Claim C5 counterexample: on `"a1b2c"` the parser does NOT take everything after
the first numeric run as the unit.  The first maximal digits/dots run is `1`;
everything after it (trimmed) is `b2c`, but the parser returns unit `b`
(the regex only captures the letters/spaces run adjacent to the numeric run
and silently discards the rest of the string). -/
theorem parse_first_run_cex :
    parseIngredientLine ("a1b2c".toList) = .ok ⟨"a".toList, 1, "b".toList⟩ ∧
    (specSplit ("a1b2c".toList)).map (fun t => stripSpaces t.2.2) =
      some ("b2c".toList) ∧
    ("b".toList : List Char) ≠ "b2c".toList := by
  decide

/-- Claim C5 (amended): whenever the regex search succeeds (and the numeric group
parses as a float), the input decomposes as `pre ++ g1 ++ g2 ++ g3 ++ post`
where `g1`/`g3` are non-empty letters/spaces runs, `g2` a non-empty
digits/dots run; the runs are maximal (the character before `g1` and the
character after `g3` are not letters/spaces), the occurrence is the leftmost
such occurrence, and the parser returns `g1` trimmed as the name, `g2` parsed
as the quantity and `g3` trimmed as the unit, ignoring `pre` and `post`. -/
theorem parse_decomposition {s g1 g2 g3 : List Char} {q : ℚ}
    (hs : search s = some (g1, g2, g3)) (hq : parseFloat g2 = some q) :
    parseIngredientLine s = .ok ⟨stripSpaces g1, q, stripSpaces g3⟩ ∧
    ∃ pre post, MatchShape s pre g1 g2 g3 post ∧
      (∀ c, pre.getLast? = some c → isAlphaSp c = false) ∧
      (∀ c, post.head? = some c → isAlphaSp c = false) ∧
      (∀ pre2 h1 h2 h3 post2, MatchShape s pre2 h1 h2 h3 post2 →
        pre.length ≤ pre2.length) := by
  refine ⟨?_, search_shape hs⟩
  simp [parseIngredientLine, hs, hq]

/-- Witness for the amended C5 theorem at the concrete input `"a1b2c"`. -/
theorem parse_decomposition_wit :
    parseIngredientLine ("a1b2c".toList) =
      .ok ⟨stripSpaces ("a".toList), 1, stripSpaces ("b".toList)⟩ ∧
    ∃ pre post,
      MatchShape ("a1b2c".toList) pre ("a".toList) ("1".toList) ("b".toList) post ∧
      (∀ c, pre.getLast? = some c → isAlphaSp c = false) ∧
      (∀ c, post.head? = some c → isAlphaSp c = false) ∧
      (∀ pre2 h1 h2 h3 post2, MatchShape ("a1b2c".toList) pre2 h1 h2 h3 post2 →
        pre.length ≤ pre2.length) :=
  @parse_decomposition ("a1b2c".toList) ("a".toList) ("1".toList) ("b".toList) 1
    (by decide) (by decide)

/-- Claim C6 counterexample: on `"x-1y"` the parser fails with the malformed
message, although the input does contain a numeric run (`1`) and does
decompose into non-empty name (`x-`), quantity (`1`) and unit (`y`) parts in
the spec's sense — the regex additionally requires the character directly
before the numeric run to be a letter or space. -/
theorem parse_fail_cex :
    parseIngredientLine ("x-1y".toList) = .malformed malformedMsg ∧
    specFails ("x-1y".toList) = false := by
  decide

/-- Claim C6 (amended): the parse fails with the `MalformedIngredientError`
message exactly when the input contains no occurrence of a non-empty
letters/spaces run followed directly by a non-empty digits/dots run followed
directly by a non-empty letters/spaces run; on such failure no structured
result is produced (the outcome is the error value, not a crash). -/
theorem parse_fail_iff (s : List Char) :
    parseIngredientLine s = .malformed malformedMsg ↔
    ¬ ∃ pre g1 g2 g3 post, MatchShape s pre g1 g2 g3 post := by
  constructor
  · intro h hex
    obtain ⟨pre, g1, g2, g3, post, hsh⟩ := hex
    have hsome := search_isSome_of_shape hsh
    cases hs : search s with
    | none => rw [hs] at hsome; exact absurd hsome (by simp)
    | some g =>
      obtain ⟨a, b, c⟩ := g
      cases hf : parseFloat b with
      | none => simp [parseIngredientLine, hs, hf] at h
      | some q => simp [parseIngredientLine, hs, hf] at h
  · intro hno
    cases hs : search s with
    | none => rw [parseIngredientLine, hs]
    | some g =>
      obtain ⟨a, b, c⟩ := g
      obtain ⟨pre, post, hsh, -, -, -⟩ := search_shape hs
      exact absurd ⟨pre, a, b, c, post, hsh⟩ hno

/-!
### Recipe repository (`src/meals/database/repository.py`)

The ORM session is modelled as an explicit state `DB`: the `ingredients`
table, the `recipes` table, and a counter `next_pk` handing out fresh
primary keys (standing for object identity of newly constructed rows).
Mutating a loaded object in place is modelled by computing the updated
recipe and writing it back over the row that `get` found.  SQLAlchemy
iterates Python sets in unspecified order; `to_add` is modelled in
first-occurrence order, which the spec declares irrelevant.
-/

structure CreateIngredientRequest where
  name : String
  quantity : ℚ
  unit : String
  deriving DecidableEq

structure UpdateRecipeRequest where
  pk : Nat
  name : String
  ingredients : List CreateIngredientRequest
  instructions : String
  deriving DecidableEq

/-- `UpdateRecipeRequest.get_ingredient`: first requested entry with the
given name. -/
def UpdateRecipeRequest.get_ingredient (req : UpdateRecipeRequest) (name : String) :
    Option CreateIngredientRequest :=
  req.ingredients.find? (fun i => i.name == name)

structure CreateRecipeRequest where
  name : String
  ingredients : List CreateIngredientRequest
  instructions : String
  deriving DecidableEq

/-- A row of the `ingredients` table (`StoredIngredient`). -/
structure StoredIngredient where
  pk : Nat
  name : String
  deriving DecidableEq

/-- A row of the `recipe_ingredients` join table (`RecipeIngredient`),
holding its ingredient row through the ORM relationship. -/
structure RecipeIngredient where
  pk : Nat
  ingredient : StoredIngredient
  quantity : ℚ
  unit : String
  deriving DecidableEq

/-- A row of the `recipes` table (`StoredRecipe`) with its association
collection. -/
structure StoredRecipe where
  pk : Nat
  user_pk : Nat
  name : String
  instructions : String
  ingredients : List RecipeIngredient
  deriving DecidableEq

/-- The session/storage state. -/
structure DB where
  ingredients : List StoredIngredient
  recipes : List StoredRecipe
  next_pk : Nat
  deriving DecidableEq

/-- The domain errors of `meals.exceptions` that the repository raises. -/
inductive MealsError where
  | userAlreadyExists
  | recipeAlreadyExists
  | recipeDoesNotExist
  | timingAlreadyExists
  deriving DecidableEq

/-- Write a value over the first list entry satisfying `p` (in-place ORM
mutation of the object `find?` returned). -/
def replaceFirst {α : Type} (p : α → Bool) (x : α) : List α → List α
  | [] => []
  | a :: as => if p a then x :: as else a :: replaceFirst p x as

/-- `RecipeRepository.get`: `select(StoredRecipe).filter_by(pk=pk, user_pk=user_pk)`,
first row. -/
def RecipeRepository.get (pk user_pk : Nat) (db : DB) : Option StoredRecipe :=
  db.recipes.find? (fun r => r.pk == pk && r.user_pk == user_pk)

/-- `existing_ingredient_names` (a set; modelled as the name list, membership
is what is used). -/
def existingNamesOf (r : StoredRecipe) : List String :=
  r.ingredients.map (fun i => i.ingredient.name)

/-- `new_ingredient_names`. -/
def newNamesOf (req : UpdateRecipeRequest) : List String :=
  req.ingredients.map (fun i => i.name)

/-- `to_delete = existing_ingredient_names - new_ingredient_names`. -/
def toDeleteOf (r : StoredRecipe) (req : UpdateRecipeRequest) : List String :=
  (existingNamesOf r).filter (fun n => ! (newNamesOf req).contains n)

/-- `to_add = new_ingredient_names - existing_ingredient_names` (a set, hence
deduplicated). -/
def toAddOf (r : StoredRecipe) (req : UpdateRecipeRequest) : List String :=
  ((newNamesOf req).filter (fun n => ! (existingNamesOf r).contains n)).dedup

/-- The first `for` loop of `update`: overwrite quantity/unit of every
existing association whose name has a requested entry (the `to_update`
membership test is kept even though it never skips anything). -/
def overwriteKept (r : StoredRecipe) (req : UpdateRecipeRequest) : List RecipeIngredient :=
  r.ingredients.map (fun ex =>
    if ! ((existingNamesOf r) ++ (newNamesOf req)).contains ex.ingredient.name then ex
    else
      match req.get_ingredient ex.ingredient.name with
      | some newI => { ex with quantity := newI.quantity, unit := newI.unit }
      | none => ex)

/-- The list comprehension of `update`: drop associations named in
`to_delete`. -/
def dropDeleted (r : StoredRecipe) (req : UpdateRecipeRequest) : List RecipeIngredient :=
  (overwriteKept r req).filter (fun i => ! (toDeleteOf r req).contains i.ingredient.name)

/-- Loop state of the `to_add` loop: associations built so far, the visible
ingredient table (autoflush makes ingredients added earlier in the loop
visible to the next `select`), and the fresh-key counter. -/
abbrev AddState := List RecipeIngredient × List StoredIngredient × Nat

/-- One iteration of the `for new in to_add` loop of `update`: fetch the
requested entry, look the name up in the ingredient table, create the
ingredient row only on a miss, then append the new association. -/
def addIngredientStep (req : UpdateRecipeRequest) (st : AddState) (n : String) : AddState :=
  match req.get_ingredient n with
  | none => st
  | some newI =>
    match st.2.1.find? (fun ing => ing.name == newI.name) with
    | some ing =>
      (st.1 ++ [{ pk := st.2.2, ingredient := ing,
                  quantity := newI.quantity, unit := newI.unit }],
       st.2.1, st.2.2 + 1)
    | none =>
      (st.1 ++ [{ pk := st.2.2 + 1,
                  ingredient := { pk := st.2.2, name := newI.name },
                  quantity := newI.quantity, unit := newI.unit }],
       st.2.1 ++ [{ pk := st.2.2, name := newI.name }], st.2.2 + 2)

/-- The reconciliation part of `update` on a found recipe: run the `to_add`
loop from the kept associations and the current ingredient table. -/
def reconcileSt (req : UpdateRecipeRequest) (r : StoredRecipe) (db : DB) : AddState :=
  (toAddOf r req).foldl (addIngredientStep req) (dropDeleted r req, db.ingredients, db.next_pk)

/-- The recipe object after `update`'s in-place mutations: name and
instructions overwritten from the request, associations reconciled. -/
def updatedRecipe (req : UpdateRecipeRequest) (r : StoredRecipe) (db : DB) : StoredRecipe :=
  { r with name := req.name, instructions := req.instructions,
           ingredients := (reconcileSt req r db).1 }

/-- `RecipeRepository.update`: raise `RecipeDoesNotExistError` when `get`
finds nothing (the session untouched); otherwise overwrite name and
instructions, reconcile the association list, and flush. -/
def RecipeRepository.update (req : UpdateRecipeRequest) (user_pk : Nat) (db : DB) :
    Except MealsError StoredRecipe × DB :=
  match RecipeRepository.get req.pk user_pk db with
  | none => (.error .recipeDoesNotExist, db)
  | some r =>
    (.ok (updatedRecipe req r db),
     { ingredients := (reconcileSt req r db).2.1,
       recipes := replaceFirst (fun x => x.pk == req.pk && x.user_pk == user_pk)
         (updatedRecipe req r db) db.recipes,
       next_pk := (reconcileSt req r db).2.2 })

/-- One iteration of the ingredient loop of `create`.  The loop runs inside
`session.no_autoflush`, so every lookup sees only the table as it was when
`create` started (`flushed`), never the rows added during this call. -/
def createIngredientStep (flushed : List StoredIngredient)
    (st : AddState) (ing : CreateIngredientRequest) : AddState :=
  match flushed.find? (fun i => i.name == ing.name) with
  | some found =>
    (st.1 ++ [{ pk := st.2.2, ingredient := found,
                quantity := ing.quantity, unit := ing.unit }],
     st.2.1, st.2.2 + 1)
  | none =>
    (st.1 ++ [{ pk := st.2.2 + 1,
                ingredient := { pk := st.2.2, name := ing.name },
                quantity := ing.quantity, unit := ing.unit }],
     st.2.1 ++ [{ pk := st.2.2, name := ing.name }], st.2.2 + 2)

/-- `RecipeRepository.create`: raise `RecipeAlreadyExistsError` when a recipe
with the requested name already exists for this user — before any ingredient
is looked up or created; otherwise resolve each ingredient and store the new
recipe. -/
def RecipeRepository.create (req : CreateRecipeRequest) (user_pk : Nat) (db : DB) :
    Except MealsError StoredRecipe × DB :=
  match db.recipes.find? (fun r => r.name == req.name && r.user_pk == user_pk) with
  | some _ => (.error .recipeAlreadyExists, db)
  | none =>
    let st := req.ingredients.foldl (createIngredientStep db.ingredients)
      ([], [], db.next_pk)
    let stored : StoredRecipe :=
      { pk := st.2.2, user_pk := user_pk, name := req.name,
        instructions := req.instructions, ingredients := st.1 }
    (.ok stored,
     { ingredients := db.ingredients ++ st.2.1,
       recipes := db.recipes ++ [stored], next_pk := st.2.2 + 1 })

theorem find?_append_some {α : Type} {p : α → Bool} {l₁ l₂ : List α} {a : α}
    (h : l₁.find? p = some a) : (l₁ ++ l₂).find? p = some a := by
  rw [List.find?_append, h]
  rfl

theorem replaceFirst_mem {α : Type} (p : α → Bool) (x : α) :
    ∀ {l : List α} {a : α}, l.find? p = some a → x ∈ replaceFirst p x l := by
  intro l
  induction l with
  | nil => intro a h; simp at h
  | cons b bs ih =>
    intro a h
    by_cases hb : p b
    · simp [replaceFirst, hb]
    · rw [List.find?_cons_of_neg _ hb] at h
      simp only [replaceFirst, hb, Bool.false_eq_true, if_false]
      exact List.mem_cons_of_mem b (ih h)

theorem addLoop_acc (req : UpdateRecipeRequest) :
    ∀ (l : List String) (st : AddState),
    ∃ t, (l.foldl (addIngredientStep req) st).1 = st.1 ++ t ∧
      ∀ x ∈ t, x.ingredient.name ∈ l := by
  intro l
  induction l with
  | nil => intro st; exact ⟨[], by simp, by simp⟩
  | cons n ls ih =>
    intro st
    rw [List.foldl_cons]
    obtain ⟨t, ht, hnames⟩ := ih (addIngredientStep req st n)
    cases hg : req.get_ingredient n with
    | none =>
      refine ⟨t, ?_, fun x hx => List.mem_cons_of_mem _ (hnames x hx)⟩
      rw [ht]
      simp [addIngredientStep, hg]
    | some newI =>
      have hname : newI.name = n := by simpa using List.find?_some hg
      cases hf : st.2.1.find? (fun ing => ing.name == newI.name) with
      | some ing =>
        have hing : ing.name = n := by
          have := List.find?_some hf
          simp only [beq_iff_eq] at this
          rw [this, hname]
        refine ⟨{ pk := st.2.2, ingredient := ing,
                  quantity := newI.quantity, unit := newI.unit } :: t, ?_, ?_⟩
        · rw [ht]; simp [addIngredientStep, hg, hf]
        · intro x hx
          rcases List.mem_cons.mp hx with rfl | hx
          · simp [hing]
          · exact List.mem_cons_of_mem _ (hnames x hx)
      | none =>
        refine ⟨{ pk := st.2.2 + 1, ingredient := { pk := st.2.2, name := newI.name },
                  quantity := newI.quantity, unit := newI.unit } :: t, ?_, ?_⟩
        · rw [ht]; simp [addIngredientStep, hg, hf]
        · intro x hx
          rcases List.mem_cons.mp hx with rfl | hx
          · simp [hname]
          · exact List.mem_cons_of_mem _ (hnames x hx)

theorem addLoop_store (req : UpdateRecipeRequest) :
    ∀ (l : List String) (st : AddState),
    ∃ t, (l.foldl (addIngredientStep req) st).2.1 = st.2.1 ++ t ∧
      ∀ x ∈ t, x.name ∈ l := by
  intro l
  induction l with
  | nil => intro st; exact ⟨[], by simp, by simp⟩
  | cons n ls ih =>
    intro st
    rw [List.foldl_cons]
    obtain ⟨t, ht, hnames⟩ := ih (addIngredientStep req st n)
    cases hg : req.get_ingredient n with
    | none =>
      refine ⟨t, ?_, fun x hx => List.mem_cons_of_mem _ (hnames x hx)⟩
      rw [ht]
      simp [addIngredientStep, hg]
    | some newI =>
      have hname : newI.name = n := by simpa using List.find?_some hg
      cases hf : st.2.1.find? (fun ing => ing.name == newI.name) with
      | some ing =>
        refine ⟨t, ?_, fun x hx => List.mem_cons_of_mem _ (hnames x hx)⟩
        rw [ht]
        simp [addIngredientStep, hg, hf]
      | none =>
        refine ⟨{ pk := st.2.2, name := newI.name } :: t, ?_, ?_⟩
        · rw [ht]; simp [addIngredientStep, hg, hf]
        · intro x hx
          rcases List.mem_cons.mp hx with rfl | hx
          · simp [hname]
          · exact List.mem_cons_of_mem _ (hnames x hx)

theorem addLoop_nodup (req : UpdateRecipeRequest) :
    ∀ (l : List String) (st : AddState),
    ((st.2.1.map (fun i => i.name)).Nodup) →
    (((l.foldl (addIngredientStep req) st).2.1.map (fun i => i.name)).Nodup) := by
  intro l
  induction l with
  | nil => intro st h; simpa using h
  | cons n ls ih =>
    intro st hnd
    rw [List.foldl_cons]
    refine ih (addIngredientStep req st n) ?_
    cases hg : req.get_ingredient n with
    | none => simpa [addIngredientStep, hg] using hnd
    | some newI =>
      cases hf : st.2.1.find? (fun ing => ing.name == newI.name) with
      | some ing => simpa [addIngredientStep, hg, hf] using hnd
      | none =>
        have hnotin : newI.name ∉ st.2.1.map (fun i => i.name) := by
          intro hmem
          obtain ⟨x, hx, hxe⟩ := List.mem_map.mp hmem
          have := List.find?_eq_none.mp hf x hx
          simp [hxe] at this
        simp only [addIngredientStep, hg, hf, List.map_append, List.map_cons, List.map_nil]
        simp [List.nodup_append, hnd, hnotin]

theorem addStep_store_cases (req : UpdateRecipeRequest) (st : AddState) (m : String) :
    (addIngredientStep req st m).2.1 = st.2.1 ∨
    ∃ k, (addIngredientStep req st m).2.1 = st.2.1 ++ [{ pk := k, name := m }] := by
  cases hg : req.get_ingredient m with
  | none => left; simp [addIngredientStep, hg]
  | some newI =>
    have hname : newI.name = m := by simpa using List.find?_some hg
    cases hf : st.2.1.find? (fun ing => ing.name == newI.name) with
    | some ing => left; simp [addIngredientStep, hg, hf]
    | none =>
      right
      rw [hname] at hf
      exact ⟨st.2.2, by simp [addIngredientStep, hg, hname, hf]⟩

theorem addLoop_resolve (req : UpdateRecipeRequest) {n : String}
    {e : CreateIngredientRequest} (he : req.get_ingredient n = some e) :
    ∀ (l : List String), l.Nodup → n ∈ l → ∀ st : AddState,
    ∃ a' ing,
      a' ∈ (l.foldl (addIngredientStep req) st).1 ∧
      a'.ingredient = ing ∧ a'.quantity = e.quantity ∧ a'.unit = e.unit ∧
      ing.name = n ∧ ing ∈ (l.foldl (addIngredientStep req) st).2.1 ∧
      (∀ ig, st.2.1.find? (fun i => i.name == n) = some ig → ing = ig) ∧
      (st.2.1.find? (fun i => i.name == n) = none → ing ∉ st.2.1) := by
  have hen : e.name = n := by simpa using List.find?_some he
  intro l
  induction l with
  | nil => intro _ hn; simp at hn
  | cons m ls ih =>
    intro hnd hn st
    rw [List.foldl_cons]
    by_cases hmn : m = n
    · subst hmn
      cases hf : st.2.1.find? (fun ing => ing.name == e.name) with
      | some ig =>
        have hstep : addIngredientStep req st m =
            (st.1 ++ [{ pk := st.2.2, ingredient := ig,
                        quantity := e.quantity, unit := e.unit }],
             st.2.1, st.2.2 + 1) := by
          simp [addIngredientStep, he, hf]
        rw [hen] at hf
        obtain ⟨t, ht, -⟩ := addLoop_acc req ls (addIngredientStep req st m)
        obtain ⟨ts, hts, -⟩ := addLoop_store req ls (addIngredientStep req st m)
        refine ⟨{ pk := st.2.2, ingredient := ig,
                  quantity := e.quantity, unit := e.unit }, ig,
          ?_, rfl, rfl, rfl, ?_, ?_, ?_, ?_⟩
        · rw [ht, hstep]; simp
        · have := List.find?_some hf
          simpa using this
        · rw [hts, hstep]
          exact List.mem_append_left _ (List.mem_of_find?_eq_some hf)
        · intro ig' h'
          rw [hf] at h'
          exact (Option.some.inj h').symm ▸ rfl
        · intro h0
          rw [hf] at h0
          exact absurd h0 (by simp)
      | none =>
        have hstep : addIngredientStep req st m =
            (st.1 ++ [{ pk := st.2.2 + 1,
                        ingredient := { pk := st.2.2, name := e.name },
                        quantity := e.quantity, unit := e.unit }],
             st.2.1 ++ [{ pk := st.2.2, name := e.name }], st.2.2 + 2) := by
          simp [addIngredientStep, he, hf]
        rw [hen] at hf
        obtain ⟨t, ht, -⟩ := addLoop_acc req ls (addIngredientStep req st m)
        obtain ⟨ts, hts, -⟩ := addLoop_store req ls (addIngredientStep req st m)
        refine ⟨{ pk := st.2.2 + 1, ingredient := { pk := st.2.2, name := e.name },
                  quantity := e.quantity, unit := e.unit },
          { pk := st.2.2, name := e.name }, ?_, rfl, rfl, rfl, hen, ?_, ?_, ?_⟩
        · rw [ht, hstep]; simp
        · rw [hts, hstep]
          simp
        · intro ig' h'
          rw [hf] at h'
          exact absurd h' (by simp)
        · intro h0 hmem
          have := List.find?_eq_none.mp hf _ hmem
          simp [hen] at this
    · have hn' : n ∈ ls := by
        rcases List.mem_cons.mp hn with h | h
        · exact absurd h.symm hmn
        · exact h
      obtain ⟨a', ing, hmem, hai, hq, hu, hingn, hings, hsome', hnone'⟩ :=
        ih (List.nodup_cons.mp hnd).2 hn' (addIngredientStep req st m)
      refine ⟨a', ing, hmem, hai, hq, hu, hingn, hings, ?_, ?_⟩
      · intro ig h'
        refine hsome' ig ?_
        rcases addStep_store_cases req st m with hc | ⟨k, hc⟩
        · rw [hc]; exact h'
        · rw [hc]
          exact find?_append_some h'
      · intro h0
        have h0' : (addIngredientStep req st m).2.1.find?
            (fun i => i.name == n) = none := by
          rcases addStep_store_cases req st m with hc | ⟨k, hc⟩
          · rw [hc]; exact h0
          · rw [hc, List.find?_append, h0]
            simp [hmn]
        have := hnone' h0'
        intro hmem
        refine this ?_
        rcases addStep_store_cases req st m with hc | ⟨k, hc⟩
        · rw [hc]; exact hmem
        · rw [hc]; exact List.mem_append_left _ hmem

theorem contains_true_iff {α : Type} [BEq α] [LawfulBEq α] {l : List α} {a : α} :
    l.contains a = true ↔ a ∈ l := by
  simp [List.contains]

theorem update_eq (req : UpdateRecipeRequest) (u : Nat) (db : DB) (r : StoredRecipe)
    (hr : RecipeRepository.get req.pk u db = some r) :
    RecipeRepository.update req u db =
      (.ok (updatedRecipe req r db),
       { ingredients := (reconcileSt req r db).2.1,
         recipes := replaceFirst (fun x => x.pk == req.pk && x.user_pk == u)
           (updatedRecipe req r db) db.recipes,
         next_pk := (reconcileSt req r db).2.2 }) := by
  rw [RecipeRepository.update, hr]

/-- Claim C9: an update naming a recipe identity that does not exist (for this
user) fails with `RecipeDoesNotExistError` and performs no mutation at all —
the state is returned exactly as it was. -/
theorem update_missing_recipe (req : UpdateRecipeRequest) (u : Nat) (db : DB)
    (h : RecipeRepository.get req.pk u db = none) :
    RecipeRepository.update req u db = (.error .recipeDoesNotExist, db) := by
  rw [RecipeRepository.update, h]

/-- Witness for C9 on a concrete empty store. -/
theorem update_missing_recipe_wit :
    RecipeRepository.update ⟨1, "Stew", [], "cook"⟩ 0 ⟨[], [], 0⟩ =
      (.error .recipeDoesNotExist, ⟨[], [], 0⟩) :=
  update_missing_recipe ⟨1, "Stew", [], "cook"⟩ 0 ⟨[], [], 0⟩ (by decide)

/-- Claim C10: a successful update overwrites the stored recipe's name and
instructions with the request's values, and the updated recipe is stored. -/
theorem update_overwrites_header (req : UpdateRecipeRequest) (u : Nat) (db : DB)
    (r : StoredRecipe) (hr : RecipeRepository.get req.pk u db = some r) :
    ∃ r' db', RecipeRepository.update req u db = (.ok r', db') ∧
      r'.name = req.name ∧ r'.instructions = req.instructions ∧ r' ∈ db'.recipes := by
  refine ⟨updatedRecipe req r db, _, update_eq req u db r hr, rfl, rfl, ?_⟩
  exact replaceFirst_mem _ _ hr

/-- Witness for C10: an update with an unchanged ingredient list still
rewrites name and instructions. -/
theorem update_overwrites_header_wit :
    ∃ r' db', RecipeRepository.update ⟨1, "Better Stew", [⟨"Carrot", 10, "units"⟩], "boil"⟩ 0
        ⟨[⟨0, "Carrot"⟩], [⟨1, 0, "Stew", "cook", [⟨2, ⟨0, "Carrot"⟩, 10, "units"⟩]⟩], 3⟩ =
        (.ok r', db') ∧
      r'.name = "Better Stew" ∧ r'.instructions = "boil" ∧ r' ∈ db'.recipes :=
  update_overwrites_header ⟨1, "Better Stew", [⟨"Carrot", 10, "units"⟩], "boil"⟩ 0
    ⟨[⟨0, "Carrot"⟩], [⟨1, 0, "Stew", "cook", [⟨2, ⟨0, "Carrot"⟩, 10, "units"⟩]⟩], 3⟩
    ⟨1, 0, "Stew", "cook", [⟨2, ⟨0, "Carrot"⟩, 10, "units"⟩]⟩ (by decide)

/-- Claim C8: creating a recipe whose name already exists for the same owner fails
with `RecipeAlreadyExistsError`; the duplicate check runs before any
ingredient resolution, so the whole state — in particular the ingredient
table — is returned unchanged. -/
theorem create_duplicate (req : CreateRecipeRequest) (u : Nat) (db : DB)
    (r : StoredRecipe) (hr : r ∈ db.recipes) (hname : r.name = req.name)
    (hu : r.user_pk = u) :
    RecipeRepository.create req u db = (.error .recipeAlreadyExists, db) := by
  have hsome : (db.recipes.find? (fun x => x.name == req.name && x.user_pk == u)).isSome := by
    rw [List.find?_isSome]
    exact ⟨r, hr, by simp [hname, hu]⟩
  obtain ⟨x, hx⟩ := Option.isSome_iff_exists.mp hsome
  rw [RecipeRepository.create, hx]

/-- Witness for C8: creating `Stew` twice for user 0; the second create
fails and leaves the store (with its new-ingredient request) untouched. -/
theorem create_duplicate_wit :
    RecipeRepository.create ⟨"Stew", [⟨"Salt", 1, "tsp"⟩], "boil"⟩ 0
        ⟨[⟨0, "Carrot"⟩], [⟨1, 0, "Stew", "cook", [⟨2, ⟨0, "Carrot"⟩, 10, "units"⟩]⟩], 3⟩ =
      (.error .recipeAlreadyExists,
        ⟨[⟨0, "Carrot"⟩], [⟨1, 0, "Stew", "cook", [⟨2, ⟨0, "Carrot"⟩, 10, "units"⟩]⟩], 3⟩) :=
  create_duplicate ⟨"Stew", [⟨"Salt", 1, "tsp"⟩], "boil"⟩ 0
    ⟨[⟨0, "Carrot"⟩], [⟨1, 0, "Stew", "cook", [⟨2, ⟨0, "Carrot"⟩, 10, "units"⟩]⟩], 3⟩
    ⟨1, 0, "Stew", "cook", [⟨2, ⟨0, "Carrot"⟩, 10, "units"⟩]⟩ (by decide) rfl rfl

/-- Claim C1: for every existing association whose ingredient name has a requested
entry, the update keeps that association (same association key, same
ingredient identity) and overwrites its quantity and unit in place with the
requested entry's values. -/
theorem update_keeps_association (req : UpdateRecipeRequest) (u : Nat) (db : DB)
    (r : StoredRecipe) (a : RecipeIngredient) (e : CreateIngredientRequest)
    (hr : RecipeRepository.get req.pk u db = some r)
    (ha : a ∈ r.ingredients)
    (he : req.get_ingredient a.ingredient.name = some e) :
    ∃ r' db', RecipeRepository.update req u db = (.ok r', db') ∧
      ∃ a' ∈ r'.ingredients, a'.pk = a.pk ∧ a'.ingredient = a.ingredient ∧
        a'.quantity = e.quantity ∧ a'.unit = e.unit := by
  have hen : e.name = a.ingredient.name := by simpa using List.find?_some he
  have hnamenew : a.ingredient.name ∈ newNamesOf req := by
    rw [← hen]
    exact List.mem_map_of_mem _ (List.mem_of_find?_eq_some he)
  have hcontn : (newNamesOf req).contains a.ingredient.name = true :=
    contains_true_iff.mpr hnamenew
  have hconte : ((existingNamesOf r) ++ (newNamesOf req)).contains a.ingredient.name
      = true :=
    contains_true_iff.mpr (List.mem_append_right _ hnamenew)
  have ha1 : { a with quantity := e.quantity, unit := e.unit } ∈ overwriteKept r req := by
    rw [overwriteKept]
    refine List.mem_map.mpr ⟨a, ha, ?_⟩
    simp only [hconte, Bool.not_true, Bool.false_eq_true, if_false, he]
  have hnotdel : a.ingredient.name ∉ toDeleteOf r req := by
    rw [toDeleteOf]
    intro hmem
    obtain ⟨-, h2⟩ := List.mem_filter.mp hmem
    have h2' : a.ingredient.name ∉ newNamesOf req := by simpa using h2
    exact h2' hnamenew
  have ha2 : { a with quantity := e.quantity, unit := e.unit } ∈ dropDeleted r req := by
    rw [dropDeleted]
    refine List.mem_filter.mpr ⟨ha1, ?_⟩
    simp only [Bool.not_eq_eq_eq_not, Bool.not_true]
    exact (Bool.not_eq_true _).mp (fun hc => hnotdel (contains_true_iff.mp hc))
  obtain ⟨t, ht, -⟩ := addLoop_acc req (toAddOf r req)
    (dropDeleted r req, db.ingredients, db.next_pk)
  refine ⟨updatedRecipe req r db, _, update_eq req u db r hr,
    { a with quantity := e.quantity, unit := e.unit }, ?_, rfl, rfl, rfl, rfl⟩
  show _ ∈ (reconcileSt req r db).1
  rw [reconcileSt, ht]
  exact List.mem_append_left _ ha2

/-- Witness for C1: requesting `Carrot 20 units` over an existing
`Carrot 10 units` association. -/
theorem update_keeps_association_wit :
    ∃ r' db', RecipeRepository.update ⟨1, "Stew", [⟨"Carrot", 20, "units"⟩], "cook"⟩ 0
        ⟨[⟨0, "Carrot"⟩], [⟨1, 0, "Stew", "cook", [⟨2, ⟨0, "Carrot"⟩, 10, "units"⟩]⟩], 3⟩ =
        (.ok r', db') ∧
      ∃ a' ∈ r'.ingredients, a'.pk = 2 ∧ a'.ingredient = ⟨0, "Carrot"⟩ ∧
        a'.quantity = 20 ∧ a'.unit = "units" :=
  update_keeps_association ⟨1, "Stew", [⟨"Carrot", 20, "units"⟩], "cook"⟩ 0
    ⟨[⟨0, "Carrot"⟩], [⟨1, 0, "Stew", "cook", [⟨2, ⟨0, "Carrot"⟩, 10, "units"⟩]⟩], 3⟩
    ⟨1, 0, "Stew", "cook", [⟨2, ⟨0, "Carrot"⟩, 10, "units"⟩]⟩
    ⟨2, ⟨0, "Carrot"⟩, 10, "units"⟩ ⟨"Carrot", 20, "units"⟩
    (by decide) (by decide) (by decide)

/-- Claim C3: every existing association whose ingredient name is absent from the
request is dropped (no association with that name survives), while the
ingredient identity itself stays in the ingredient table. -/
theorem update_drops_association (req : UpdateRecipeRequest) (u : Nat) (db : DB)
    (r : StoredRecipe) (a : RecipeIngredient)
    (hr : RecipeRepository.get req.pk u db = some r)
    (ha : a ∈ r.ingredients)
    (hno : a.ingredient.name ∉ newNamesOf req)
    (hstore : a.ingredient ∈ db.ingredients) :
    ∃ r' db', RecipeRepository.update req u db = (.ok r', db') ∧
      (∀ b ∈ r'.ingredients, b.ingredient.name ≠ a.ingredient.name) ∧
      a.ingredient ∈ db'.ingredients := by
  refine ⟨updatedRecipe req r db, _, update_eq req u db r hr, ?_, ?_⟩
  · intro b hb
    obtain ⟨t, ht, hnames⟩ := addLoop_acc req (toAddOf r req)
      (dropDeleted r req, db.ingredients, db.next_pk)
    have hb' : b ∈ dropDeleted r req ++ t := by
      have : b ∈ (reconcileSt req r db).1 := hb
      rw [reconcileSt, ht] at this
      exact this
    rcases List.mem_append.mp hb' with hbk | hbt
    · obtain ⟨-, h2⟩ := List.mem_filter.mp (by rw [dropDeleted] at hbk; exact hbk)
      intro heq
      have hadel : a.ingredient.name ∈ toDeleteOf r req := by
        rw [toDeleteOf]
        refine List.mem_filter.mpr ⟨List.mem_map_of_mem _ ha, ?_⟩
        simp only [Bool.not_eq_eq_eq_not, Bool.not_true]
        exact (Bool.not_eq_true _).mp (fun hc => hno (contains_true_iff.mp hc))
      rw [heq] at h2
      rw [contains_true_iff.mpr hadel] at h2
      simp at h2
    · have hmemadd : b.ingredient.name ∈ toAddOf r req := hnames b hbt
      have : b.ingredient.name ∈ newNamesOf req := by
        rw [toAddOf] at hmemadd
        exact (List.mem_filter.mp (List.mem_dedup.mp hmemadd)).1
      intro heq
      rw [heq] at this
      exact hno this
  · obtain ⟨ts, hts, -⟩ := addLoop_store req (toAddOf r req)
      (dropDeleted r req, db.ingredients, db.next_pk)
    show a.ingredient ∈ (reconcileSt req r db).2.1
    rw [reconcileSt, hts]
    exact List.mem_append_left _ hstore

/-- Witness for C3: dropping the `Delete` association keeps the `Delete`
ingredient row in the table. -/
theorem update_drops_association_wit :
    ∃ r' db', RecipeRepository.update ⟨1, "Stew", [⟨"Carrot", 10, "units"⟩], "cook"⟩ 0
        ⟨[⟨0, "Carrot"⟩, ⟨4, "Delete"⟩],
         [⟨1, 0, "Stew", "cook",
           [⟨2, ⟨0, "Carrot"⟩, 10, "units"⟩, ⟨5, ⟨4, "Delete"⟩, 1, "stuff"⟩]⟩], 6⟩ =
        (.ok r', db') ∧
      (∀ b ∈ r'.ingredients, b.ingredient.name ≠ "Delete") ∧
      (⟨4, "Delete"⟩ : StoredIngredient) ∈ db'.ingredients :=
  update_drops_association ⟨1, "Stew", [⟨"Carrot", 10, "units"⟩], "cook"⟩ 0
    ⟨[⟨0, "Carrot"⟩, ⟨4, "Delete"⟩],
     [⟨1, 0, "Stew", "cook",
       [⟨2, ⟨0, "Carrot"⟩, 10, "units"⟩, ⟨5, ⟨4, "Delete"⟩, 1, "stuff"⟩]⟩], 6⟩
    ⟨1, 0, "Stew", "cook",
      [⟨2, ⟨0, "Carrot"⟩, 10, "units"⟩, ⟨5, ⟨4, "Delete"⟩, 1, "stuff"⟩]⟩
    ⟨5, ⟨4, "Delete"⟩, 1, "stuff"⟩
    (by decide) (by decide) (by decide) (by decide)

theorem find?_of_triple_eq :
    ∀ (ri : List CreateIngredientRequest) (ai : List RecipeIngredient),
    ri.map (fun i => (i.name, i.quantity, i.unit)) =
      ai.map (fun a => (a.ingredient.name, a.quantity, a.unit)) →
    (ai.map (fun a => a.ingredient.name)).Nodup →
    ∀ a ∈ ai, ∃ i, ri.find? (fun x => x.name == a.ingredient.name) = some i ∧
      i.quantity = a.quantity ∧ i.unit = a.unit := by
  intro ri
  induction ri with
  | nil =>
    intro ai h hnd a ha
    cases ai with
    | nil => simp at ha
    | cons b bs => simp at h
  | cons i0 ri' ih =>
    intro ai h hnd a ha
    cases ai with
    | nil => simp at h
    | cons b bs =>
      simp only [List.map_cons, List.cons.injEq, Prod.mk.injEq] at h
      obtain ⟨⟨hn, hq, hu⟩, htl⟩ := h
      rcases List.mem_cons.mp ha with rfl | ha'
      · exact ⟨i0, by simp [hn], hq, hu⟩
      · have hnd' : (b.ingredient.name :: bs.map (fun x => x.ingredient.name)).Nodup := by
          simpa using hnd
        have hbna : b.ingredient.name ∉ bs.map (fun x => x.ingredient.name) :=
          (List.nodup_cons.mp hnd').1
        have hane : a.ingredient.name ≠ b.ingredient.name := by
          intro hcontra
          exact hbna (hcontra ▸ List.mem_map_of_mem _ ha')
        have hfind : ¬ ((i0.name == a.ingredient.name) = true) := by
          simp only [beq_iff_eq, hn]
          exact fun hcontra => hane hcontra.symm
        rw [List.find?_cons_of_neg (p := fun x => x.name == a.ingredient.name) ri' hfind]
        refine ih bs htl ?_ a ha'
        simpa using (List.nodup_cons.mp hnd').2

/-- Claim C4: reconciliation idempotence.  Updating a recipe with a requested list
carrying exactly its current (name, quantity, unit) triples leaves the
association list, the ingredient table and the key counter unchanged: no
identity is created or replaced, no association added or dropped, every
quantity and unit keeps its value. -/
theorem update_idempotent (req : UpdateRecipeRequest) (u : Nat) (db : DB)
    (r : StoredRecipe)
    (hr : RecipeRepository.get req.pk u db = some r)
    (hnd : (existingNamesOf r).Nodup)
    (hsame : req.ingredients.map (fun i => (i.name, i.quantity, i.unit)) =
             r.ingredients.map (fun a => (a.ingredient.name, a.quantity, a.unit))) :
    ∃ r' db', RecipeRepository.update req u db = (.ok r', db') ∧
      r'.ingredients = r.ingredients ∧ db'.ingredients = db.ingredients ∧
      db'.next_pk = db.next_pk := by
  have hnames : newNamesOf req = existingNamesOf r := by
    have hcong := congrArg (List.map Prod.fst) hsame
    simpa [newNamesOf, existingNamesOf, List.map_map, Function.comp] using hcong
  have hover : overwriteKept r req = r.ingredients := by
    rw [overwriteKept]
    refine (List.map_congr_left ?_).trans (List.map_id _)
    intro a ha
    have hmemE : a.ingredient.name ∈ existingNamesOf r := List.mem_map_of_mem _ ha
    have hconte : ((existingNamesOf r) ++ (newNamesOf req)).contains a.ingredient.name
        = true := contains_true_iff.mpr (List.mem_append_left _ hmemE)
    obtain ⟨i, hfind, hq, hu⟩ :=
      find?_of_triple_eq req.ingredients r.ingredients hsame (by simpa [existingNamesOf] using hnd) a ha
    have hget : req.get_ingredient a.ingredient.name = some i := hfind
    simp only [hconte, Bool.not_true, Bool.false_eq_true, if_false, hget, hq, hu, id]
  have hdel : toDeleteOf r req = [] := by
    rw [toDeleteOf, List.filter_eq_nil_iff]
    intro n hn
    have hmem : n ∈ newNamesOf req := by rw [hnames]; exact hn
    simp [hmem]
  have hadd : toAddOf r req = [] := by
    rw [toAddOf]
    have hfil : (newNamesOf req).filter (fun n => ! (existingNamesOf r).contains n) = [] := by
      rw [List.filter_eq_nil_iff]
      intro n hn
      have hmem : n ∈ existingNamesOf r := by rw [← hnames]; exact hn
      simp [hmem]
    rw [hfil]
    rfl
  have hkept : dropDeleted r req = r.ingredients := by
    rw [dropDeleted, hover, hdel]
    rw [List.filter_eq_self]
    intro b hb
    simp
  refine ⟨updatedRecipe req r db, _, update_eq req u db r hr, ?_, ?_, ?_⟩
  · show (reconcileSt req r db).1 = r.ingredients
    rw [reconcileSt, hadd, List.foldl_nil, hkept]
  · show (reconcileSt req r db).2.1 = db.ingredients
    rw [reconcileSt, hadd, List.foldl_nil]
  · show (reconcileSt req r db).2.2 = db.next_pk
    rw [reconcileSt, hadd, List.foldl_nil]

/-- Witness for C4: re-sending `Carrot 10 units` leaves everything as it
was. -/
theorem update_idempotent_wit :
    ∃ r' db', RecipeRepository.update ⟨1, "Stew", [⟨"Carrot", 10, "units"⟩], "cook"⟩ 0
        ⟨[⟨0, "Carrot"⟩], [⟨1, 0, "Stew", "cook", [⟨2, ⟨0, "Carrot"⟩, 10, "units"⟩]⟩], 3⟩ =
        (.ok r', db') ∧
      r'.ingredients = [⟨2, ⟨0, "Carrot"⟩, 10, "units"⟩] ∧
      db'.ingredients = [⟨0, "Carrot"⟩] ∧ db'.next_pk = 3 :=
  update_idempotent ⟨1, "Stew", [⟨"Carrot", 10, "units"⟩], "cook"⟩ 0
    ⟨[⟨0, "Carrot"⟩], [⟨1, 0, "Stew", "cook", [⟨2, ⟨0, "Carrot"⟩, 10, "units"⟩]⟩], 3⟩
    ⟨1, 0, "Stew", "cook", [⟨2, ⟨0, "Carrot"⟩, 10, "units"⟩]⟩
    (by decide) (by decide) (by decide)

/-- Claim C2: for a requested ingredient name with no existing association, the
update appends a new association carrying the requested quantity and unit,
resolving the ingredient identity by exact name lookup over the whole
ingredient table: an existing row of that name is reused (never duplicated —
name-uniqueness of the table is preserved), and a fresh row is created only
when no row of that name exists. -/
theorem update_adds_ingredient (req : UpdateRecipeRequest) (u : Nat) (db : DB)
    (r : StoredRecipe) (n : String) (e : CreateIngredientRequest)
    (hr : RecipeRepository.get req.pk u db = some r)
    (hnew : n ∈ newNamesOf req)
    (hnotex : n ∉ existingNamesOf r)
    (he : req.get_ingredient n = some e) :
    ∃ r' db', RecipeRepository.update req u db = (.ok r', db') ∧
      ((db.ingredients.map (fun i => i.name)).Nodup →
        (db'.ingredients.map (fun i => i.name)).Nodup) ∧
      ∃ a' ing, a' ∈ r'.ingredients ∧ a'.ingredient = ing ∧
        a'.quantity = e.quantity ∧ a'.unit = e.unit ∧ ing.name = n ∧
        ing ∈ db'.ingredients ∧
        (∀ ig, db.ingredients.find? (fun i => i.name == n) = some ig → ing = ig) ∧
        (db.ingredients.find? (fun i => i.name == n) = none → ing ∉ db.ingredients) := by
  have hmemAdd : n ∈ toAddOf r req := by
    rw [toAddOf]
    refine List.mem_dedup.mpr (List.mem_filter.mpr ⟨hnew, ?_⟩)
    simp only [Bool.not_eq_eq_eq_not, Bool.not_true]
    exact (Bool.not_eq_true _).mp (fun hc => hnotex (contains_true_iff.mp hc))
  obtain ⟨a', ing, hmem, hai, hq, hu, hingn, hings, hsome, hnone⟩ :=
    addLoop_resolve req he (toAddOf r req) (List.nodup_dedup _) hmemAdd
      (dropDeleted r req, db.ingredients, db.next_pk)
  refine ⟨updatedRecipe req r db, _, update_eq req u db r hr, ?_,
    a', ing, hmem, hai, hq, hu, hingn, hings, hsome, hnone⟩
  intro hnd0
  exact addLoop_nodup req (toAddOf r req)
    (dropDeleted r req, db.ingredients, db.next_pk) hnd0

/-- Witness for C2: adding `Salt 1 tsp` to a recipe holding only `Carrot`,
with a `Salt` identity already present in the table from elsewhere. -/
theorem update_adds_ingredient_wit :
    ∃ r' db', RecipeRepository.update
        ⟨1, "Stew", [⟨"Carrot", 10, "units"⟩, ⟨"Salt", 1, "tsp"⟩], "cook"⟩ 0
        ⟨[⟨0, "Carrot"⟩, ⟨3, "Salt"⟩],
         [⟨1, 0, "Stew", "cook", [⟨2, ⟨0, "Carrot"⟩, 10, "units"⟩]⟩], 6⟩ =
        (.ok r', db') ∧
      (([⟨0, "Carrot"⟩, ⟨3, "Salt"⟩].map (fun i : StoredIngredient => i.name)).Nodup →
        (db'.ingredients.map (fun i => i.name)).Nodup) ∧
      ∃ a' ing, a' ∈ r'.ingredients ∧ a'.ingredient = ing ∧
        a'.quantity = 1 ∧ a'.unit = "tsp" ∧ ing.name = "Salt" ∧
        ing ∈ db'.ingredients ∧
        (∀ ig, [⟨0, "Carrot"⟩, ⟨3, "Salt"⟩].find?
            (fun i : StoredIngredient => i.name == "Salt") = some ig → ing = ig) ∧
        ([⟨0, "Carrot"⟩, ⟨3, "Salt"⟩].find?
            (fun i : StoredIngredient => i.name == "Salt") = none →
          ing ∉ ([⟨0, "Carrot"⟩, ⟨3, "Salt"⟩] : List StoredIngredient)) :=
  update_adds_ingredient
    ⟨1, "Stew", [⟨"Carrot", 10, "units"⟩, ⟨"Salt", 1, "tsp"⟩], "cook"⟩ 0
    ⟨[⟨0, "Carrot"⟩, ⟨3, "Salt"⟩],
     [⟨1, 0, "Stew", "cook", [⟨2, ⟨0, "Carrot"⟩, 10, "units"⟩]⟩], 6⟩
    ⟨1, 0, "Stew", "cook", [⟨2, ⟨0, "Carrot"⟩, 10, "units"⟩]⟩
    "Salt" ⟨"Salt", 1, "tsp"⟩
    (by decide) (by decide) (by decide) (by decide)

end Meals
